import Mathlib

/-!
Shallow embedding of the audio feature extractor (`AudioUtils` in the
repository) over exact real arithmetic, together with theorems checking the
specification's claims about it.  Each definition mirrors one function or
loop of the source; floating-point numbers are modelled by `ℝ` (the spec's
claims are stated "under exact real arithmetic"), JavaScript `Float32Array`s
by Lean lists, and the in-place complex work array of the transform by a
function `ℕ → ℝ × ℝ` (real part, imaginary part).
-/

open scoped Classical

/-- The decoded audio buffer: sample rate, duration and one sample list per
channel (mirrors the Web Audio `AudioBuffer` fields the source reads). -/
structure AudioBuffer where
  sampleRate : ℝ
  duration : ℝ
  channels : List (List ℝ)

/-- `audioBuffer.getChannelData(c)`. -/
def AudioBuffer.getChannelData (b : AudioBuffer) (c : ℕ) : List ℝ :=
  b.channels.getD c []

/-- `audioBuffer.numberOfChannels`. -/
def AudioBuffer.numberOfChannels (b : AudioBuffer) : ℕ :=
  b.channels.length

/-- The frame-start offsets produced by the loop
`for (let i = 0; i < channelData.length - F; i += 512)` shared by the three
frame-based analyses (hop size is the literal 512 at every call site).
`L` is the channel length, `F` the frame size, `i` the loop counter. -/
def frameStarts (L F i : ℕ) : List ℕ :=
  if i < L - F then i :: frameStarts L F (i + 512) else []
termination_by L - i
decreasing_by
  have : i < L := lt_of_lt_of_le (by assumption) (Nat.sub_le _ _)
  omega

/-- `channelData.slice(i, i + F)`. -/
def sliceFrame (d : List ℝ) (i F : ℕ) : List ℝ :=
  (d.drop i).take F

/-- The crossing-counting loop of `calculateZeroCrossingRate`:
`for (let i = 1; i < channelData.length; i++) if ((d[i] >= 0) !== (d[i-1] >= 0)) crossings++`. -/
noncomputable def crossings (d : List ℝ) (i : ℕ) : ℕ :=
  if i < d.length then
    (if (0 ≤ d.getD i 0) ↔ (0 ≤ d.getD (i - 1) 0) then 0 else 1) + crossings d (i + 1)
  else 0
termination_by d.length - i

/-- `AudioUtils.calculateZeroCrossingRate` on the sample data of channel 0. -/
noncomputable def calculateZeroCrossingRateData (d : List ℝ) : ℝ :=
  (crossings d 1 : ℝ) / ((d.length : ℝ) - 1)

/-- `AudioUtils.calculateZeroCrossingRate`. -/
noncomputable def calculateZeroCrossingRate (b : AudioBuffer) : ℝ :=
  calculateZeroCrossingRateData (b.getChannelData 0)

/-! ### The transform (`AudioUtils.fft`)

The interleaved complex array `output` (`output[2p]` real, `output[2p+1]`
imaginary) is modelled as a function `ℕ → ℝ × ℝ` sending the complex slot
index `p` to its (real, imaginary) pair. -/

/-- Complex multiplication exactly as spelled in the source butterfly:
`(a.re*b.re - a.im*b.im, a.re*b.im + a.im*b.re)`. -/
def cmul (a b : ℝ × ℝ) : ℝ × ℝ :=
  (a.1 * b.1 - a.2 * b.2, a.1 * b.2 + a.2 * b.1)

/-- Componentwise addition of the (real, imaginary) pairs. -/
def cadd (a b : ℝ × ℝ) : ℝ × ℝ := (a.1 + b.1, a.2 + b.2)

/-- Componentwise subtraction of the (real, imaginary) pairs. -/
def csub (a b : ℝ × ℝ) : ℝ × ℝ := (a.1 - b.1, a.2 - b.2)

/-- The inner `while (j & bit) { j ^= bit; bit >>= 1 }` of the bit-reversal
permutation, returning the final `(j, bit)`. -/
def brWhile (j bit : ℕ) : ℕ × ℕ :=
  if j &&& bit ≠ 0 then brWhile (j ^^^ bit) (bit / 2) else (j, bit)
termination_by bit
decreasing_by
  have hb : bit ≠ 0 := by
    intro h; simp [h] at *
  omega

/-- One bit-reversal-permutation update of `j` for array size `N`:
`bit = N >> 1; while (j & bit) { j ^= bit; bit >>= 1 }; j ^= bit`. -/
def brNext (N j : ℕ) : ℕ :=
  (brWhile j (N / 2)).1 ^^^ (brWhile j (N / 2)).2

/-- Swapping the complex entries at slots `a` and `b` (the source swaps the
real parts and the imaginary parts; on pairs that is one swap). -/
def swapIdx (out : ℕ → ℝ × ℝ) (a b : ℕ) : ℕ → ℝ × ℝ :=
  fun p => if p = a then out b else if p = b then out a else out p

/-- The bit-reversal permutation loop
`for (let i = 1; i < N; i++) { ...update j...; if (i < j) swap(i, j) }`. -/
def brLoop (N i j : ℕ) (out : ℕ → ℝ × ℝ) : ℕ → ℝ × ℝ :=
  if i < N then
    brLoop N (i + 1) (brNext N j)
      (if i < brNext N j then swapIdx out i (brNext N j) else out)
  else out
termination_by N - i

/-- The innermost butterfly loop `for (let j = 0; j < length / 2; j++)`:
`u = out[i+j]`, `v = out[i+j+len/2] * w` (complex product written out in the
source), `out[i+j] = u + v`, `out[i+j+len/2] = u - v`, then `w *= wlen`. -/
def jLoop (len : ℕ) (wlen : ℝ × ℝ) (i j : ℕ) (w : ℝ × ℝ) (out : ℕ → ℝ × ℝ) :
    ℕ → ℝ × ℝ :=
  if j < len / 2 then
    jLoop len wlen i (j + 1) (cmul w wlen)
      (fun p =>
        if p = i + j then cadd (out (i + j)) (cmul (out (i + j + len / 2)) w)
        else if p = i + j + len / 2 then
          csub (out (i + j)) (cmul (out (i + j + len / 2)) w)
        else out p)
  else out
termination_by len / 2 - j

/-- The block loop `for (let i = 0; i < N; i += length)`, starting each block
with `w = (1, 0)`.  (The `0 < len` guard only serves termination: every call
site has `len ≥ 2`, and with `len = 0` the source loop would not terminate.) -/
def iLoop (N len : ℕ) (wlen : ℝ × ℝ) (i : ℕ) (out : ℕ → ℝ × ℝ) : ℕ → ℝ × ℝ :=
  if 0 < len ∧ i < N then iLoop N len wlen (i + len) (jLoop len wlen i 0 (1, 0) out)
  else out
termination_by N - i
decreasing_by omega

/-- The stage twiddle factor: `angle = -2π/length`, `wlen = (cos angle, sin angle)`. -/
noncomputable def wlenOf (len : ℕ) : ℝ × ℝ :=
  (Real.cos (-2 * Real.pi / len), Real.sin (-2 * Real.pi / len))

/-- The stage loop `for (let length = 2; length <= N; length <<= 1)`.
(The `0 < len` guard only serves termination; the call site starts at 2.) -/
noncomputable def lenLoop (N len : ℕ) (out : ℕ → ℝ × ℝ) : ℕ → ℝ × ℝ :=
  if 0 < len ∧ len ≤ N then lenLoop N (2 * len) (iLoop N len (wlenOf len) 0 out)
  else out
termination_by N + 1 - len
decreasing_by omega

/-- The complex work array of `AudioUtils.fft` after the bit-reversal
permutation and all butterfly stages, from input `signal`. -/
noncomputable def fftOut (signal : List ℝ) : ℕ → ℝ × ℝ :=
  lenLoop signal.length 2
    (brLoop signal.length 1 0 (fun p => (signal.getD p 0, 0)))

/-- `AudioUtils.fft`: the magnitude spectrum
`magnitude[i] = sqrt(out[2i]^2 + out[2i+1]^2)`. -/
noncomputable def fft (signal : List ℝ) : List ℝ :=
  (List.range signal.length).map
    (fun p => Real.sqrt ((fftOut signal p).1 ^ 2 + (fftOut signal p).2 ^ 2))

/-! ### The frame-based analyses -/

/-- The weighted frequency sum accumulated by the inner loop of
`calculateSpectralCentroid`: `Σ_{j < m.length/2} (j*sampleRate/m.length) * m[j]`. -/
noncomputable def weightedSum (sr : ℝ) (m : List ℝ) : ℝ :=
  ∑ j ∈ Finset.range (m.length / 2), ((j : ℝ) * sr / (m.length : ℝ)) * m.getD j 0

/-- The magnitude sum accumulated by the same loop: `Σ_{j < m.length/2} m[j]`. -/
noncomputable def magnitudeSum (m : List ℝ) : ℝ :=
  ∑ j ∈ Finset.range (m.length / 2), m.getD j 0

/-- One loop iteration of `calculateSpectralCentroid` on the
`(totalCentroid, frameCount)` accumulator: add the frame's centroid
`weightedSum / magnitudeSum` and bump the frame count, unless the frame's
magnitude sum is not positive (`if (magnitudeSum > 0)` in the source). -/
noncomputable def centroidStep (d : List ℝ) (sr : ℝ) (acc : ℝ × ℕ) (i : ℕ) : ℝ × ℕ :=
  if 0 < magnitudeSum (fft (sliceFrame d i 2048)) then
    (acc.1 + weightedSum sr (fft (sliceFrame d i 2048)) /
      magnitudeSum (fft (sliceFrame d i 2048)), acc.2 + 1)
  else acc

/-- `AudioUtils.calculateSpectralCentroid` final division: mean of the
accumulated centroids, or 0 when `frameCount = 0`. -/
noncomputable def calculateSpectralCentroidData (d : List ℝ) (sr : ℝ) : ℝ :=
  let acc := (frameStarts d.length 2048 0).foldl (centroidStep d sr) (0, 0)
  if 0 < acc.2 then acc.1 / (acc.2 : ℝ) else 0

/-- `AudioUtils.calculateSpectralCentroid`. -/
noncomputable def calculateSpectralCentroid (b : AudioBuffer) : ℝ :=
  calculateSpectralCentroidData (b.getChannelData 0) b.sampleRate

/-- `AudioUtils.hzToMel`: `2595 * log10(1 + hz / 700)`. -/
noncomputable def hzToMel (hz : ℝ) : ℝ :=
  2595 * Real.logb 10 (1 + hz / 700)

/-- `AudioUtils.calculateMFCC` on the channel-0 data: for every frame push 13
mel-mapped values `hzToMel(j * sampleRate / magnitude.length)`, then keep the
first 13 (`.slice(0, mfccCoeffs)`). -/
noncomputable def calculateMFCCData (d : List ℝ) (sr : ℝ) : List ℝ :=
  ((frameStarts d.length 1024 0).flatMap
    (fun i => (List.range 13).map
      (fun (j : ℕ) => hzToMel ((j : ℝ) * sr /
        ((fft (sliceFrame d i 1024)).length : ℝ))))).take 13

/-- `AudioUtils.calculateMFCC`. -/
noncomputable def calculateMFCC (b : AudioBuffer) : List ℝ :=
  calculateMFCCData (b.getChannelData 0) b.sampleRate

/-- `Math.max(...magnitude)` for the (always nonempty) magnitude list. -/
def maxList : List ℝ → ℝ
  | [] => 0
  | x :: xs => xs.foldl max x

/-- The peak-counting loop of `detectPolyphony`: bins `j ∈ [1, m.length-2]`
with `m[j] > threshold`, `m[j] > m[j-1]` and `m[j] > m[j+1]`, where
`threshold = Math.max(...m) * 0.1`. -/
noncomputable def peakCount (m : List ℝ) : ℕ :=
  ((List.range m.length).filter
    (fun j => 1 ≤ j ∧ j + 1 < m.length ∧
      maxList m * 0.1 < m.getD j 0 ∧
      m.getD (j - 1) 0 < m.getD j 0 ∧ m.getD (j + 1) 0 < m.getD j 0)).length

/-- `AudioUtils.detectPolyphony` on the channel-0 data:
`totalFrames > 0 && polyphonicFrames / totalFrames > 0.3`, a frame being
polyphonic when its peak count exceeds 3. -/
noncomputable def detectPolyphonyData (d : List ℝ) : Bool :=
  let starts := frameStarts d.length 2048 0
  let polyphonicFrames :=
    (starts.filter (fun i => 3 < peakCount (fft (sliceFrame d i 2048)))).length
  let totalFrames := starts.length
  if 0 < totalFrames ∧
      (0.3 : ℝ) < (polyphonicFrames : ℝ) / (totalFrames : ℝ) then true else false

/-- `AudioUtils.detectPolyphony`. -/
noncomputable def detectPolyphony (b : AudioBuffer) : Bool :=
  detectPolyphonyData (b.getChannelData 0)

/-! ### The aggregate analysis (`AudioUtils.analyzeAudio`) -/

/-- The `AudioFormat` record of the source. -/
structure AudioFormat where
  sampleRate : ℝ
  channels : ℕ
  bitDepth : ℕ
  duration : ℝ

/-- The `AudioAnalysis` record of the source (`tempo`/`key` nullable). -/
structure AudioAnalysis where
  format : AudioFormat
  isPolyphonic : Bool
  spectralCentroid : ℝ
  zeroCrossingRate : ℝ
  mfccFeatures : List ℝ
  tempo : Option ℝ
  key : Option String

/-- `AudioUtils.analyzeAudio` (the `Promise` wrapper carries no effects:
the body is a pure computation). -/
noncomputable def analyzeAudio (b : AudioBuffer) : AudioAnalysis :=
  { format :=
      { sampleRate := b.sampleRate
        channels := b.numberOfChannels
        bitDepth := 16
        duration := b.duration }
    isPolyphonic := detectPolyphony b
    spectralCentroid := calculateSpectralCentroid b
    zeroCrossingRate := calculateZeroCrossingRate b
    mfccFeatures := calculateMFCC b
    tempo := none
    key := none }

/-! ### Helper lemmas -/

/-- Closed form of the frame-start loop from an arbitrary loop counter `i`
(the fuel bounds the remaining iterations). -/
lemma frameStarts_eq_map_aux (L F : ℕ) :
    ∀ fuel i, L - i ≤ fuel →
      frameStarts L F i =
        (List.range ((L - F - i + 511) / 512)).map (fun k => i + 512 * k) := by
  intro fuel
  induction fuel with
  | zero =>
    intro i hi
    rw [frameStarts, if_neg (by omega)]
    have h0 : L - F - i = 0 := by omega
    rw [h0]
    simp
  | succ n ih =>
    intro i hi
    by_cases h : i < L - F
    · rw [frameStarts, if_pos h, ih (i + 512) (by omega)]
      have hn : (L - F - i + 511) / 512 = (L - F - (i + 512) + 511) / 512 + 1 := by
        omega
      rw [hn, List.range_succ_eq_map, List.map_cons, List.map_map]
      refine congrArg₂ _ (by omega) (List.map_congr_left ?_)
      intro k _
      simp [Function.comp, Nat.succ_eq_add_one]
      omega
    · rw [frameStarts, if_neg h]
      have h0 : L - F - i = 0 := by omega
      rw [h0]
      simp

/-- Closed form of the frame-start loop. -/
lemma frameStarts_eq_map (L F i : ℕ) :
    frameStarts L F i =
      (List.range ((L - F - i + 511) / 512)).map (fun k => i + 512 * k) :=
  frameStarts_eq_map_aux L F (L - i) i le_rfl

/-- `fft` returns as many magnitude bins as input samples. -/
lemma fft_length (s : List ℝ) : (fft s).length = s.length := by
  simp [fft]

/-- A frame sliced from within the channel has full length `F`. -/
lemma sliceFrame_length (d : List ℝ) (i F : ℕ) (h : i + F ≤ d.length) :
    (sliceFrame d i F).length = F := by
  simp [sliceFrame]
  omega

/-! ### Claim theorems -/

/-- C10: `analyzeAudio` reports `bitDepth = 16`, copies the sample rate,
channel count and duration from the input buffer unchanged, and always
returns `tempo = null` and `key = null`. -/
theorem analyzeAudio_fields (b : AudioBuffer) :
    (analyzeAudio b).format.bitDepth = 16 ∧
    (analyzeAudio b).format.sampleRate = b.sampleRate ∧
    (analyzeAudio b).format.channels = b.numberOfChannels ∧
    (analyzeAudio b).format.duration = b.duration ∧
    (analyzeAudio b).tempo = none ∧
    (analyzeAudio b).key = none :=
  ⟨rfl, rfl, rfl, rfl, rfl, rfl⟩

/-- C9: each analysis function is a pure function of the channel-0 sample
data and the sample rate alone: two buffers agreeing there get equal results
whatever their other channels or durations are (mutation of the input cannot
arise: the embedding of each function is a pure function of the buffer). -/
theorem analyses_channel0_only (b₁ b₂ : AudioBuffer)
    (hch : b₁.getChannelData 0 = b₂.getChannelData 0)
    (hsr : b₁.sampleRate = b₂.sampleRate) :
    calculateSpectralCentroid b₁ = calculateSpectralCentroid b₂ ∧
    calculateZeroCrossingRate b₁ = calculateZeroCrossingRate b₂ ∧
    calculateMFCC b₁ = calculateMFCC b₂ ∧
    detectPolyphony b₁ = detectPolyphony b₂ := by
  unfold calculateSpectralCentroid calculateZeroCrossingRate calculateMFCC
    detectPolyphony
  rw [hch, hsr]
  exact ⟨rfl, rfl, rfl, rfl⟩

/-- Witness for C9: a mono and a stereo buffer sharing channel 0 and sample
rate (but different second channels and durations) analyze identically. -/
theorem analyses_channel0_only_witness :
    calculateSpectralCentroid ⟨44100, 1, [[1, -1]]⟩ =
      calculateSpectralCentroid ⟨44100, 7, [[1, -1], [0, 5]]⟩ ∧
    calculateZeroCrossingRate ⟨44100, 1, [[1, -1]]⟩ =
      calculateZeroCrossingRate ⟨44100, 7, [[1, -1], [0, 5]]⟩ ∧
    calculateMFCC ⟨44100, 1, [[1, -1]]⟩ =
      calculateMFCC ⟨44100, 7, [[1, -1], [0, 5]]⟩ ∧
    detectPolyphony ⟨44100, 1, [[1, -1]]⟩ =
      detectPolyphony ⟨44100, 7, [[1, -1], [0, 5]]⟩ :=
  analyses_channel0_only _ _ rfl rfl

/-- C3 (corrected): frames start at offsets `0, 512, 1024, …` (multiples of
the hop) for as long as the offset is *strictly* below `length − frameSize`
(the loop condition is `i < length - frameSize`), so a channel whose length
exactly equals the frame size yields zero analyzed frames, not one. -/
theorem frameStarts_amended :
    (∀ L F : ℕ, frameStarts L F 0 =
      (List.range ((L - F + 511) / 512)).map (fun k => 512 * k)) ∧
    (∀ F : ℕ, frameStarts F F 0 = []) := by
  constructor
  · intro L F
    rw [frameStarts_eq_map]
    simp
  · intro F
    rw [frameStarts_eq_map]
    simp

/-- Counterexample for C3 as stated: a channel of exactly one frame
(2048 samples, frame size 2048) produces zero analyzed frames, not one. -/
theorem frameStarts_counterexample :
    (frameStarts 2048 2048 0).length = 0 ∧
    ¬ (frameStarts 2048 2048 0).length = 1 := by
  rw [frameStarts]
  norm_num

/-- C7 (corrected): the coefficient vector has length 13 only when the
channel holds strictly more than 1024 samples (so at least one frame is
analyzed); otherwise `slice(0, 13)` of the empty feature list is empty, so
the length is 0, not 13 — the length is not independent of the buffer. -/
theorem calculateMFCC_length_amended (b : AudioBuffer) :
    (calculateMFCC b).length =
      if 1024 < (b.getChannelData 0).length then 13 else 0 := by
  have hfm : ∀ (l : List ℕ),
      (l.flatMap (fun i => (List.range 13).map
        (fun (j : ℕ) => hzToMel ((j : ℝ) * b.sampleRate /
          ((fft (sliceFrame (b.getChannelData 0) i 1024)).length : ℝ))))).length =
      13 * l.length := by
    intro l
    induction l with
    | nil => simp
    | cons a t ih =>
      rw [List.flatMap_cons, List.length_append, ih]
      simp
      ring
  unfold calculateMFCC calculateMFCCData
  rw [List.length_take, hfm]
  by_cases h : 1024 < (b.getChannelData 0).length
  · rw [if_pos h]
    rw [frameStarts, if_pos (by omega)]
    simp
  · rw [if_neg h]
    rw [frameStarts, if_neg (by omega)]
    simp

/-- Counterexample for C7 as stated: a buffer with an empty channel yields an
empty coefficient vector, not a fixed-length-13 one. -/
theorem calculateMFCC_length_counterexample :
    (calculateMFCC ⟨44100, 0, []⟩).length = 0 ∧
    ¬ (calculateMFCC ⟨44100, 0, []⟩).length = 13 := by
  unfold calculateMFCC calculateMFCCData AudioBuffer.getChannelData
  rw [frameStarts]
  norm_num

/-- C6 (corrected): when the channel holds *strictly more than* 1024 samples
(exactly 1024 yields no analyzed frame, see the counterexample), entry `k` of
the coefficient vector is `2595 * log10(1 + (k * sampleRate / 1024) / 700)`
for every `k < 13`; in particular it depends only on the sample rate, not on
the sample values. -/
theorem calculateMFCC_entries_amended (b : AudioBuffer) (k : ℕ)
    (hlen : 1024 < (b.getChannelData 0).length) (hk : k < 13) :
    (calculateMFCC b)[k]? =
      some (2595 * Real.logb 10 (1 + (k : ℝ) * b.sampleRate / 1024 / 700)) := by
  unfold calculateMFCC calculateMFCCData
  rw [frameStarts, if_pos (by omega), List.flatMap_cons]
  rw [List.take_left' (by simp)]
  rw [List.getElem?_map, List.getElem?_range hk, Option.map_some']
  have hfl : ((fft (sliceFrame (b.getChannelData 0) 0 1024)).length : ℝ) = 1024 := by
    rw [fft_length, sliceFrame_length _ _ _ (by omega)]
    norm_num
  rw [hfl]
  rfl

/-- Witness for C6: a 1025-sample all-zero channel at 44100 Hz has
`mel(0 * 44100 / 1024) = 2595 * log10(1)` as coefficient 0. -/
theorem calculateMFCC_entries_amended_witness :
    (calculateMFCC ⟨44100, 1, [List.replicate 1025 0]⟩)[0]? =
      some (2595 * Real.logb 10 (1 + (0 : ℝ) * 44100 / 1024 / 700)) := by
  have h := calculateMFCC_entries_amended ⟨44100, 1, [List.replicate 1025 0]⟩ 0
    (by rw [show AudioBuffer.getChannelData ⟨44100, 1, [List.replicate 1025 0]⟩ 0 =
          List.replicate 1025 0 from rfl, List.length_replicate]
        norm_num)
    (by norm_num)
  rw [Nat.cast_zero] at h
  exact h

/-- Counterexample for C6 as stated: a channel of exactly 1024 samples does
contain one full frame, yet the coefficient vector is empty — entry 0 does
not exist, let alone equal the mel formula. -/
theorem calculateMFCC_entries_counterexample :
    (AudioBuffer.getChannelData ⟨44100, 1, [List.replicate 1024 0]⟩ 0).length = 1024 ∧
    (calculateMFCC ⟨44100, 1, [List.replicate 1024 0]⟩)[0]? = none := by
  have hch : AudioBuffer.getChannelData ⟨44100, 1, [List.replicate 1024 0]⟩ 0 =
      List.replicate 1024 0 := rfl
  constructor
  · rw [hch, List.length_replicate]
  · unfold calculateMFCC calculateMFCCData
    rw [hch, List.length_replicate, frameStarts]
    norm_num

/-- The spec's maximally-oscillating test signal `+1, −1, +1, −1, …`. -/
def altSignal (n : ℕ) : List ℝ :=
  (List.range n).map (fun i => if i % 2 = 0 then 1 else -1)

/-- The crossing count never exceeds the number of adjacent pairs. -/
lemma crossings_le (d : List ℝ) :
    ∀ fuel i, d.length - i ≤ fuel → crossings d i ≤ d.length - i := by
  intro fuel
  induction fuel with
  | zero =>
    intro i hi
    rw [crossings, if_neg (by omega)]
    exact Nat.zero_le _
  | succ n ih =>
    intro i hi
    by_cases h : i < d.length
    · rw [crossings, if_pos h]
      have h1 : (if (0 ≤ d.getD i 0) ↔ (0 ≤ d.getD (i - 1) 0) then 0 else 1) ≤ 1 := by
        split <;> norm_num
      have h2 := ih (i + 1) (by omega)
      omega
    · rw [crossings, if_neg h]
      exact Nat.zero_le _

/-- If the sign predicate `0 ≤ ·` is constant along the channel, no crossing
is counted. -/
lemma crossings_const (d : List ℝ)
    (hsame : ∀ i j, i < d.length → j < d.length →
      ((0 ≤ d.getD i 0) ↔ (0 ≤ d.getD j 0))) :
    ∀ fuel i, d.length - i ≤ fuel → 1 ≤ i → crossings d i = 0 := by
  intro fuel
  induction fuel with
  | zero =>
    intro i hi _
    rw [crossings, if_neg (by omega)]
  | succ n ih =>
    intro i hi h1
    by_cases h : i < d.length
    · rw [crossings, if_pos h, if_pos (hsame i (i - 1) h (by omega)),
        ih (i + 1) (by omega) (by omega)]
    · rw [crossings, if_neg h]

/-- Entries of the alternating test signal. -/
lemma altSignal_getD (n i : ℕ) (h : i < n) :
    (altSignal n).getD i 0 = if i % 2 = 0 then 1 else -1 := by
  unfold altSignal
  rw [List.getD_eq_getElem _ _ (by simp [h]), List.getElem_map, List.getElem_range]

/-- On the alternating signal every adjacent pair crosses. -/
lemma crossings_alt (n : ℕ) :
    ∀ fuel i, n - i ≤ fuel → 1 ≤ i → crossings (altSignal n) i = n - i := by
  intro fuel
  induction fuel with
  | zero =>
    intro i hi _
    rw [crossings, if_neg (by simp [altSignal]; omega)]
    simp [altSignal] at hi ⊢
    omega
  | succ m ih =>
    intro i hi h1
    have hlen : (altSignal n).length = n := by simp [altSignal]
    by_cases h : i < n
    · rw [crossings, if_pos (by omega : i < (altSignal n).length)]
      have hi1 : (altSignal n).getD i 0 = if i % 2 = 0 then 1 else -1 :=
        altSignal_getD n i h
      have hi2 : (altSignal n).getD (i - 1) 0 = if (i - 1) % 2 = 0 then 1 else -1 :=
        altSignal_getD n (i - 1) (by omega)
      have hneg : ¬ ((0 ≤ (altSignal n).getD i 0) ↔ (0 ≤ (altSignal n).getD (i - 1) 0)) := by
        rw [hi1, hi2]
        rcases Nat.even_or_odd i with he | ho
        · have e1 : i % 2 = 0 := Nat.even_iff.mp he
          have e2 : ¬ ((i - 1) % 2 = 0) := by omega
          rw [if_pos e1, if_neg e2]
          norm_num
        · have e1 : ¬ (i % 2 = 0) := by
            have := Nat.odd_iff.mp ho
            omega
          have e2 : (i - 1) % 2 = 0 := by
            have := Nat.odd_iff.mp ho
            omega
          rw [if_neg e1, if_pos e2]
          norm_num
      rw [if_neg hneg, ih (i + 1) (by omega) (by omega)]
      omega
    · rw [crossings, if_neg (by omega : ¬ i < (altSignal n).length)]
      omega

/-- C5: the zero-crossing rate lies in [0, 1]; it is exactly 0 on a
constant-sign channel and exactly 1 on the strictly alternating
`+1, −1, +1, −1, …` channel (of at least two samples). -/
theorem zcr_spec :
    (∀ b : AudioBuffer,
      0 ≤ calculateZeroCrossingRate b ∧ calculateZeroCrossingRate b ≤ 1) ∧
    (∀ b : AudioBuffer,
      ((∀ x ∈ b.getChannelData 0, 0 ≤ x) ∨ (∀ x ∈ b.getChannelData 0, x < 0)) →
      calculateZeroCrossingRate b = 0) ∧
    (∀ (b : AudioBuffer) (n : ℕ), 2 ≤ n → b.getChannelData 0 = altSignal n →
      calculateZeroCrossingRate b = 1) := by
  refine ⟨?_, ?_, ?_⟩
  · intro b
    unfold calculateZeroCrossingRate calculateZeroCrossingRateData
    set d := b.getChannelData 0 with hd
    rcases Nat.lt_or_ge d.length 2 with hL | hL
    · have hc : crossings d 1 = 0 := by
        rw [crossings, if_neg (by omega)]
      rw [hc]
      norm_num
    · have hc : crossings d 1 ≤ d.length - 1 := crossings_le d (d.length - 1) 1 le_rfl
      have hden : (0 : ℝ) < (d.length : ℝ) - 1 := by
        have : (2 : ℝ) ≤ (d.length : ℝ) := by exact_mod_cast hL
        linarith
      constructor
      · positivity
      · rw [div_le_one hden]
        have : ((crossings d 1 : ℕ) : ℝ) ≤ ((d.length - 1 : ℕ) : ℝ) := by
          exact_mod_cast hc
        have hcast : ((d.length - 1 : ℕ) : ℝ) = (d.length : ℝ) - 1 := by
          have h1 : 1 ≤ d.length := by omega
          push_cast [h1]
          ring
        linarith [hcast ▸ this]
  · intro b hconst
    unfold calculateZeroCrossingRate calculateZeroCrossingRateData
    set d := b.getChannelData 0 with hd
    have hsame : ∀ i j, i < d.length → j < d.length →
        ((0 ≤ d.getD i 0) ↔ (0 ≤ d.getD j 0)) := by
      intro i j hi hj
      rcases hconst with hpos | hneg
      · rw [List.getD_eq_getElem _ _ hi, List.getD_eq_getElem _ _ hj]
        exact iff_of_true (hpos _ (List.getElem_mem hi)) (hpos _ (List.getElem_mem hj))
      · rw [List.getD_eq_getElem _ _ hi, List.getD_eq_getElem _ _ hj]
        exact iff_of_false (not_le.mpr (hneg _ (List.getElem_mem hi)))
          (not_le.mpr (hneg _ (List.getElem_mem hj)))
    rw [crossings_const d hsame (d.length - 1) 1 le_rfl le_rfl]
    norm_num
  · intro b n hn hch
    unfold calculateZeroCrossingRate calculateZeroCrossingRateData
    rw [hch]
    have hlen : (altSignal n).length = n := by simp [altSignal]
    rw [hlen, crossings_alt n (n - 1) 1 le_rfl le_rfl]
    have h1 : ((n - 1 : ℕ) : ℝ) = (n : ℝ) - 1 := by
      have : 1 ≤ n := by omega
      push_cast [this]
      ring
    rw [h1]
    apply div_self
    have : (2 : ℝ) ≤ (n : ℝ) := by exact_mod_cast hn
    linarith

/-- Witness for C5: the two-sample signal `+1, −1` has rate exactly 1. -/
theorem zcr_spec_witness :
    calculateZeroCrossingRate ⟨44100, 1, [altSignal 2]⟩ = 1 :=
  zcr_spec.2.2 ⟨44100, 1, [altSignal 2]⟩ 2 (by norm_num) rfl

/-! ### C2: spectral centroid as the mean of per-frame centroids -/

/-- The spec's per-frame centroid: `Σ(freq_j · mag_j) / Σ(mag_j)` over the
first half of the bins, `freq_j = j · sampleRate / frameLength`. -/
noncomputable def centroidOfFrameSpec (sr : ℝ) (m : List ℝ) : ℝ :=
  (∑ j ∈ Finset.range (m.length / 2), ((j : ℝ) * sr / (m.length : ℝ)) * m.getD j 0) /
    (∑ j ∈ Finset.range (m.length / 2), m.getD j 0)

/-- The spec's description of the whole computation: take the magnitude
spectra of all analyzed frames, drop those with zero magnitude sum, and
average the remaining per-frame centroids (0 when none remain). -/
noncomputable def spectralCentroidSpec (d : List ℝ) (sr : ℝ) : ℝ :=
  let valid := ((frameStarts d.length 2048 0).map
      (fun i => fft (sliceFrame d i 2048))).filter
      (fun m => (∑ j ∈ Finset.range (m.length / 2), m.getD j 0) ≠ 0)
  if valid = [] then 0
  else (valid.map (fun m => centroidOfFrameSpec sr m)).sum / (valid.length : ℝ)

/-- Every magnitude bin produced by `fft` is non-negative (a square root). -/
lemma fft_getD_nonneg (s : List ℝ) (j : ℕ) : 0 ≤ (fft s).getD j 0 := by
  rcases Nat.lt_or_ge j (fft s).length with h | h
  · rw [List.getD_eq_getElem _ _ h]
    unfold fft
    rw [List.getElem_map]
    exact Real.sqrt_nonneg _
  · rw [List.getD_eq_default _ _ h]

/-- Magnitude sums of transformed frames are non-negative. -/
lemma magnitudeSum_fft_nonneg (s : List ℝ) : 0 ≤ magnitudeSum (fft s) :=
  Finset.sum_nonneg (fun j _ => fft_getD_nonneg s j)

/-- The running `(totalCentroid, frameCount)` fold equals the sum and count
over the frames with non-zero magnitude sum. -/
lemma centroid_foldl (d : List ℝ) (sr : ℝ) :
    ∀ (l : List ℕ) (t : ℝ) (c : ℕ),
      l.foldl (centroidStep d sr) (t, c) =
        (t + (((l.map (fun i => fft (sliceFrame d i 2048))).filter
            (fun m => magnitudeSum m ≠ 0)).map
            (fun m => weightedSum sr m / magnitudeSum m)).sum,
         c + ((l.map (fun i => fft (sliceFrame d i 2048))).filter
            (fun m => magnitudeSum m ≠ 0)).length) := by
  intro l
  induction l with
  | nil =>
    intro t c
    simp
  | cons a l ih =>
    intro t c
    rw [List.foldl_cons]
    by_cases hp : 0 < magnitudeSum (fft (sliceFrame d a 2048))
    · have hs : magnitudeSum (fft (sliceFrame d a 2048)) ≠ 0 := ne_of_gt hp
      rw [show centroidStep d sr (t, c) a =
          (t + weightedSum sr (fft (sliceFrame d a 2048)) /
            magnitudeSum (fft (sliceFrame d a 2048)), c + 1) from by
        unfold centroidStep
        rw [if_pos hp]]
      rw [ih]
      simp only [List.map_cons, List.filter_cons]
      rw [if_pos (by simp [hs])]
      simp only [List.map_cons, List.sum_cons, List.length_cons, Prod.mk.injEq]
      constructor
      · ring
      · omega
    · have hs : magnitudeSum (fft (sliceFrame d a 2048)) = 0 :=
        le_antisymm (not_lt.mp hp) (magnitudeSum_fft_nonneg _)
      rw [show centroidStep d sr (t, c) a = (t, c) from by
        unfold centroidStep
        rw [if_neg hp]]
      rw [ih]
      simp only [List.map_cons, List.filter_cons]
      rw [if_neg (by simp [hs])]

/-- C2: the spectral centroid equals the arithmetic mean, over the frames
whose magnitude sum is non-zero, of the per-frame centroids
`Σ(freq_j · mag_j) / Σ(mag_j)` over the first half of the bins with
`freq_j = j · sampleRate / frameLength`, and is 0 when no frame has a
non-zero magnitude sum. -/
theorem spectralCentroid_spec (b : AudioBuffer) :
    calculateSpectralCentroid b =
      spectralCentroidSpec (b.getChannelData 0) b.sampleRate := by
  simp only [calculateSpectralCentroid, calculateSpectralCentroidData,
    spectralCentroidSpec]
  rw [centroid_foldl]
  simp only [zero_add, centroidOfFrameSpec, weightedSum, magnitudeSum]
  set valid := ((frameStarts (b.getChannelData 0).length 2048 0).map
      (fun i => fft (sliceFrame (b.getChannelData 0) i 2048))).filter
      (fun m => (∑ j ∈ Finset.range (m.length / 2), m.getD j 0) ≠ 0) with hv
  by_cases h : valid = []
  · simp [h]
  · rw [if_pos (List.length_pos.mpr h), if_neg h]

/-! ### C4: the polyphony heuristic -/

/-- The spec's peak count: bins other than the first and last whose magnitude
exceeds 10% of the frame's maximum and strictly exceeds both neighbours. -/
noncomputable def peakCountSpec (m : List ℝ) : ℕ :=
  ((List.range m.length).filter
    (fun j => j ≠ 0 ∧ j ≠ m.length - 1 ∧
      maxList m * 0.1 < m.getD j 0 ∧
      m.getD (j - 1) 0 < m.getD j 0 ∧ m.getD (j + 1) 0 < m.getD j 0)).length

/-- The spec's polyphony predicate: at least one analyzed frame, and the
fraction of frames with more than 3 peaks exceeds 0.3. -/
noncomputable def detectPolyphonySpec (d : List ℝ) : Prop :=
  0 < (frameStarts d.length 2048 0).length ∧
    (0.3 : ℝ) <
      (((frameStarts d.length 2048 0).filter
          (fun i => 3 < peakCountSpec (fft (sliceFrame d i 2048)))).length : ℝ) /
        ((frameStarts d.length 2048 0).length : ℝ)

/-- The code's peak-loop bounds `1 ≤ j ∧ j + 1 < length` coincide with the
spec's "non-first, non-last bin". -/
lemma peakCount_eq_spec (m : List ℝ) : peakCount m = peakCountSpec m := by
  unfold peakCount peakCountSpec
  congr 1
  apply List.filter_congr
  intro j hj
  have hjm : j < m.length := List.mem_range.mp hj
  apply decide_eq_decide.mpr
  constructor
  · rintro ⟨h1, h2, h3⟩
    exact ⟨by omega, by omega, h3⟩
  · rintro ⟨h1, h2, h3⟩
    exact ⟨by omega, by omega, h3⟩

/-- C4: `detectPolyphony` returns `true` iff there is at least one analyzed
frame and the fraction of frames with more than 3 peaks exceeds 0.3 (a peak
being a non-first, non-last bin above 10% of the frame maximum and strictly
above both neighbours); with zero frames it returns `false`. -/
theorem detectPolyphony_iff (b : AudioBuffer) :
    (detectPolyphony b = true ↔ detectPolyphonySpec (b.getChannelData 0)) ∧
    (frameStarts (b.getChannelData 0).length 2048 0 = [] →
      detectPolyphony b = false) := by
  have hfilter :
      (frameStarts (b.getChannelData 0).length 2048 0).filter
        (fun i => 3 < peakCount (fft (sliceFrame (b.getChannelData 0) i 2048))) =
      (frameStarts (b.getChannelData 0).length 2048 0).filter
        (fun i => 3 < peakCountSpec (fft (sliceFrame (b.getChannelData 0) i 2048))) := by
    apply List.filter_congr
    intro i _
    rw [peakCount_eq_spec]
  constructor
  · simp only [detectPolyphony, detectPolyphonyData, detectPolyphonySpec, hfilter]
    by_cases hp : 0 < (frameStarts (b.getChannelData 0).length 2048 0).length ∧
        (0.3 : ℝ) <
          (((frameStarts (b.getChannelData 0).length 2048 0).filter
              (fun i => 3 < peakCountSpec (fft (sliceFrame (b.getChannelData 0) i 2048)))).length : ℝ) /
            ((frameStarts (b.getChannelData 0).length 2048 0).length : ℝ)
    · rw [if_pos hp]
      simp [hp]
    · rw [if_neg hp]
      simp [hp]
  · intro h0
    simp only [detectPolyphony, detectPolyphonyData, h0]
    norm_num

/-- Witness for C4: the empty buffer has zero frames, so no polyphony. -/
theorem detectPolyphony_iff_witness :
    detectPolyphony ⟨44100, 0, []⟩ = false :=
  (detectPolyphony_iff ⟨44100, 0, []⟩).2 (by
    rw [show AudioBuffer.getChannelData ⟨44100, 0, []⟩ 0 = ([] : List ℝ) from rfl]
    rw [List.length_nil, frameStarts]
    norm_num)

/-! ### C8: the transform of an all-zero frame -/

/-- `(0, 0)` is absorbing for the source's complex multiplication. -/
lemma cmul_zero (w : ℝ × ℝ) : cmul (0, 0) w = (0, 0) := by
  simp [cmul]

/-- The butterfly loop maps the all-zero array to the all-zero array. -/
lemma jLoop_zero (len : ℕ) (wlen : ℝ × ℝ) (i : ℕ) :
    ∀ fuel j w (out : ℕ → ℝ × ℝ), len / 2 - j ≤ fuel →
      (∀ p, out p = (0, 0)) → ∀ p, jLoop len wlen i j w out p = (0, 0) := by
  intro fuel
  induction fuel with
  | zero =>
    intro j w out hf hz p
    rw [jLoop, if_neg (by omega)]
    exact hz p
  | succ n ih =>
    intro j w out hf hz p
    by_cases h : j < len / 2
    · rw [jLoop, if_pos h]
      apply ih _ _ _ (by omega) _ p
      intro q
      by_cases h1 : q = i + j
      · simp [h1, hz, cmul, cadd]
      · have hne : len / 2 ≠ 0 := by omega
        by_cases h2 : q = i + j + len / 2
        · simp [h1, h2, hz, cmul, csub, hne]
        · simp [h1, h2, hz]
    · rw [jLoop, if_neg h]
      exact hz p

/-- The block loop maps the all-zero array to the all-zero array. -/
lemma iLoop_zero (N len : ℕ) (wlen : ℝ × ℝ) :
    ∀ fuel i (out : ℕ → ℝ × ℝ), N - i ≤ fuel →
      (∀ p, out p = (0, 0)) → ∀ p, iLoop N len wlen i out p = (0, 0) := by
  intro fuel
  induction fuel with
  | zero =>
    intro i out hf hz p
    rw [iLoop, if_neg (by omega)]
    exact hz p
  | succ n ih =>
    intro i out hf hz p
    by_cases h : 0 < len ∧ i < N
    · rw [iLoop, if_pos h]
      exact ih (i + len) _ (by omega)
        (jLoop_zero len wlen i (len / 2) 0 (1, 0) out (by omega) hz) p
    · rw [iLoop, if_neg h]
      exact hz p

/-- The stage loop maps the all-zero array to the all-zero array. -/
lemma lenLoop_zero (N : ℕ) :
    ∀ fuel len (out : ℕ → ℝ × ℝ), N + 1 - len ≤ fuel →
      (∀ p, out p = (0, 0)) → ∀ p, lenLoop N len out p = (0, 0) := by
  intro fuel
  induction fuel with
  | zero =>
    intro len out hf hz p
    rw [lenLoop, if_neg (by omega)]
    exact hz p
  | succ n ih =>
    intro len out hf hz p
    by_cases h : 0 < len ∧ len ≤ N
    · rw [lenLoop, if_pos h]
      exact ih (2 * len) _ (by omega)
        (iLoop_zero N len (wlenOf len) N 0 out (by omega) hz) p
    · rw [lenLoop, if_neg h]
      exact hz p

/-- The bit-reversal loop maps the all-zero array to the all-zero array. -/
lemma brLoop_zero (N : ℕ) :
    ∀ fuel i j (out : ℕ → ℝ × ℝ), N - i ≤ fuel →
      (∀ p, out p = (0, 0)) → ∀ p, brLoop N i j out p = (0, 0) := by
  intro fuel
  induction fuel with
  | zero =>
    intro i j out hf hz p
    rw [brLoop, if_neg (by omega)]
    exact hz p
  | succ n ih =>
    intro i j out hf hz p
    by_cases h : i < N
    · rw [brLoop, if_pos h]
      apply ih (i + 1) (brNext N j) _ (by omega) _ p
      intro q
      by_cases hs : i < brNext N j
      · simp [hs, swapIdx, hz]
      · simp [hs, hz]
    · rw [brLoop, if_neg h]
      exact hz p

/-- Reading anywhere in an all-zero sample list gives 0. -/
lemma replicate_getD (N p : ℕ) : (List.replicate N (0 : ℝ)).getD p 0 = 0 := by
  rcases Nat.lt_or_ge p N with h | h
  · rw [List.getD_eq_getElem _ _ (by simp [h]), List.getElem_replicate]
  · rw [List.getD_eq_default _ _ (by simp [h])]

/-- C8: for every power-of-two frame size, the transform of an all-zero
frame is an all-zero magnitude spectrum. -/
theorem fft_zero_frame (N : ℕ) (hN : ∃ k, N = 2 ^ k) :
    fft (List.replicate N 0) = List.replicate N 0 := by
  have hz : ∀ p, fftOut (List.replicate N 0) p = (0, 0) := by
    intro p
    unfold fftOut
    simp only [List.length_replicate]
    apply lenLoop_zero N (N + 1) 2 _ (by omega) _ p
    apply brLoop_zero N N 1 0 _ (by omega)
    intro q
    simp [replicate_getD]
  unfold fft
  simp only [List.length_replicate]
  refine List.eq_replicate_iff.mpr ⟨by simp, ?_⟩
  intro x hx
  rcases List.mem_map.mp hx with ⟨p, _, hp⟩
  rw [← hp, hz p]
  norm_num

/-- Witness for C8: the two-sample all-zero frame transforms to `[0, 0]`. -/
theorem fft_zero_frame_witness :
    fft (List.replicate 2 0) = List.replicate 2 0 :=
  fft_zero_frame 2 ⟨1, rfl⟩

/-! ### C1: the transform equals the reference DFT

The correctness proof follows the classical decimation-in-time argument:
the incremental `j` of the source's permutation loop tracks the `k`-bit
reversal of `i`, the permutation loop therefore applies the bit-reversal
permutation, and each butterfly stage of size `2^(s+1)` turns the size-`2^s`
sub-DFTs held in adjacent blocks into size-`2^(s+1)` sub-DFTs. -/

/-- Reversal of the low `k` bits of `j`: the lowest bit of `j` becomes the
highest of the result. -/
def rev (k j : ℕ) : ℕ :=
  match k with
  | 0 => 0
  | k + 1 => rev k (j / 2) + j % 2 * 2 ^ k

lemma rev_lt (k : ℕ) : ∀ j, rev k j < 2 ^ k := by
  induction k with
  | zero =>
    intro j
    simp [rev]
  | succ k ih =>
    intro j
    have h1 := ih (j / 2)
    have h2 : j % 2 ≤ 1 := by omega
    have h3 : 2 ^ (k + 1) = 2 ^ k * 2 := pow_succ 2 k
    show rev k (j / 2) + j % 2 * 2 ^ k < 2 ^ (k + 1)
    nlinarith

lemma rev_succ (k j : ℕ) : rev (k + 1) j = rev k (j / 2) + j % 2 * 2 ^ k := rfl

lemma rev_zero (k : ℕ) : rev k 0 = 0 := by
  induction k with
  | zero => rfl
  | succ k ih =>
    rw [rev_succ]
    simpa using ih

/-- Appending a top bit before reversal appends it as low bit after. -/
lemma rev_add_two_pow (k : ℕ) :
    ∀ a b, a < 2 ^ k → b ≤ 1 → rev (k + 1) (a + b * 2 ^ k) = 2 * rev k a + b := by
  induction k with
  | zero =>
    intro a b ha hb
    interval_cases a
    interval_cases b <;> rfl
  | succ k ih =>
    intro a b ha hb
    have h3 : 2 ^ (k + 1) = 2 ^ k * 2 := pow_succ 2 k
    have hp : a % 2 = 0 ∨ a % 2 = 1 := by omega
    rw [rev_succ]
    rcases Nat.le_one_iff_eq_zero_or_eq_one.mp hb with rfl | rfl
    · have e1 : (a + 0 * 2 ^ (k + 1)) / 2 = a / 2 + 0 * 2 ^ k := by omega
      have e2 : (a + 0 * 2 ^ (k + 1)) % 2 = a % 2 := by omega
      rw [e1, e2, ih (a / 2) 0 (by omega) (by omega), rev_succ]
      rcases hp with hp | hp <;> rw [hp] <;> simp <;> omega
    · have e1 : (a + 1 * 2 ^ (k + 1)) / 2 = a / 2 + 1 * 2 ^ k := by omega
      have e2 : (a + 1 * 2 ^ (k + 1)) % 2 = a % 2 := by omega
      rw [e1, e2, ih (a / 2) 1 (by omega) (by omega), rev_succ]
      rcases hp with hp | hp <;> rw [hp] <;> simp <;> omega

/-- The `k`-bit reversal is an involution below `2^k`. -/
lemma rev_rev (k : ℕ) : ∀ j, j < 2 ^ k → rev k (rev k j) = j := by
  induction k with
  | zero =>
    intro j hj
    interval_cases j
    rfl
  | succ k ih =>
    intro j hj
    have h3 : 2 ^ (k + 1) = 2 ^ k * 2 := pow_succ 2 k
    rw [rev_succ k j, rev_add_two_pow k (rev k (j / 2)) (j % 2) (rev_lt k (j / 2)) (by omega),
      ih (j / 2) (by omega)]
    omega

lemma and_two_pow_eq_zero (a k : ℕ) (h : a < 2 ^ k) : a &&& 2 ^ k = 0 := by
  rw [Nat.and_two_pow, Nat.testBit_lt_two_pow h]
  simp

lemma add_and_two_pow_ne (a k : ℕ) (h : a < 2 ^ k) : (a + 2 ^ k) &&& 2 ^ k ≠ 0 := by
  rw [Nat.add_comm, Nat.and_two_pow, Nat.testBit_two_pow_add_eq,
    Nat.testBit_lt_two_pow h]
  simp

lemma xor_two_pow_of_lt (a k : ℕ) (h : a < 2 ^ k) : a ^^^ 2 ^ k = a + 2 ^ k := by
  apply Nat.eq_of_testBit_eq
  intro t
  rw [Nat.testBit_xor, Nat.testBit_two_pow, Nat.add_comm]
  rcases lt_trichotomy t k with ht | ht | ht
  · rw [Nat.testBit_two_pow_add_gt ht]
    have : ¬ (k = t) := by omega
    simp [this]
  · subst ht
    rw [Nat.testBit_two_pow_add_eq, Nat.testBit_lt_two_pow h]
    simp
  · have h1 : 2 ^ t ≤ 2 ^ t := le_rfl
    have h2 : 2 ^ k + a < 2 ^ t := by
      have : 2 ^ (k + 1) ≤ 2 ^ t := Nat.pow_le_pow_right (by omega) (by omega)
      have : 2 ^ (k + 1) = 2 ^ k * 2 := pow_succ 2 k
      omega
    rw [Nat.testBit_lt_two_pow h2, Nat.testBit_lt_two_pow (by omega : a < 2 ^ t)]
    have : ¬ (k = t) := by omega
    simp [this]

lemma add_two_pow_xor (a k : ℕ) (h : a < 2 ^ k) : (a + 2 ^ k) ^^^ 2 ^ k = a := by
  rw [← xor_two_pow_of_lt a k h, Nat.xor_assoc, Nat.xor_self, Nat.xor_zero]

/-- The source's inner `while` plus final `j ^= bit` implements the
bit-reversed increment: from `rev k i` it produces `rev k (i+1)`. -/
lemma brNext_rev (k : ℕ) : ∀ i, i + 1 < 2 ^ k → brNext (2 ^ k) (rev k i) = rev k (i + 1) := by
  induction k with
  | zero =>
    intro i hi
    omega
  | succ k ih =>
    intro i hi
    have h3 : 2 ^ (k + 1) = 2 ^ k * 2 := pow_succ 2 k
    have hhalf : 2 ^ (k + 1) / 2 = 2 ^ k := by omega
    have hlt : rev k (i / 2) < 2 ^ k := rev_lt k (i / 2)
    unfold brNext
    rw [hhalf]
    by_cases hpar : i % 2 = 0
    · have hrev : rev (k + 1) i = rev k (i / 2) := by
        rw [rev_succ, hpar]
        simp
      rw [hrev, brWhile, if_neg (by simp [and_two_pow_eq_zero _ _ hlt])]
      simp only
      rw [xor_two_pow_of_lt _ _ hlt]
      have hstep : rev (k + 1) (i + 1) = rev k ((i + 1) / 2) + (i + 1) % 2 * 2 ^ k := rfl
      rw [hstep]
      have e1 : (i + 1) / 2 = i / 2 := by omega
      have e2 : (i + 1) % 2 = 1 := by omega
      rw [e1, e2]
      omega
    · have hpar1 : i % 2 = 1 := by omega
      have hk0 : 0 < k ∨ k = 0 := by omega
      rcases hk0 with hkpos | hk0
      · have hrev : rev (k + 1) i = rev k (i / 2) + 2 ^ k := by
          rw [rev_succ, hpar1, one_mul]
        rw [hrev, brWhile, if_pos (add_and_two_pow_ne _ _ hlt)]
        rw [add_two_pow_xor _ _ hlt]
        have hih := ih (i / 2) (by omega)
        unfold brNext at hih
        rw [hih]
        have hstep : rev (k + 1) (i + 1) = rev k ((i + 1) / 2) + (i + 1) % 2 * 2 ^ k := rfl
        rw [hstep]
        have e1 : (i + 1) / 2 = i / 2 + 1 := by omega
        have e2 : (i + 1) % 2 = 0 := by omega
        rw [e1, e2]
        omega
      · subst hk0
        omega

/-- The (real, imaginary) slot pair read as one complex number. -/
noncomputable def toC (p : ℝ × ℝ) : ℂ := ⟨p.1, p.2⟩

lemma toC_cmul (a b : ℝ × ℝ) : toC (cmul a b) = toC a * toC b := by
  apply Complex.ext
  · simp [toC, cmul, Complex.mul_re]
  · simp [toC, cmul, Complex.mul_im]

lemma toC_cadd (a b : ℝ × ℝ) : toC (cadd a b) = toC a + toC b := by
  apply Complex.ext
  · simp [toC, cadd]
  · simp [toC, cadd]

lemma toC_csub (a b : ℝ × ℝ) : toC (csub a b) = toC a - toC b := by
  apply Complex.ext
  · simp [toC, csub]
  · simp [toC, csub]

lemma toC_one : toC (1, 0) = 1 := by
  apply Complex.ext
  · simp [toC]
  · simp [toC]

/-- The primitive root the stage of size `L` multiplies by. -/
noncomputable def omegaC (L : ℕ) : ℂ :=
  Complex.exp (((-2 * Real.pi / L : ℝ) : ℂ) * Complex.I)

lemma toC_wlenOf (len : ℕ) : toC (wlenOf len) = omegaC len := by
  rw [omegaC, Complex.exp_mul_I]
  rw [show Complex.cos ((-2 * Real.pi / len : ℝ) : ℂ) =
      ((Real.cos (-2 * Real.pi / len) : ℝ) : ℂ) from (Complex.ofReal_cos _).symm]
  rw [show Complex.sin ((-2 * Real.pi / len : ℝ) : ℂ) =
      ((Real.sin (-2 * Real.pi / len) : ℝ) : ℂ) from (Complex.ofReal_sin _).symm]
  apply Complex.ext
  · simp only [toC, wlenOf, Complex.add_re, Complex.ofReal_re, Complex.mul_re,
      Complex.ofReal_im, Complex.I_re, Complex.I_im]
    ring
  · simp only [toC, wlenOf, Complex.add_im, Complex.ofReal_re, Complex.ofReal_im,
      Complex.mul_im, Complex.I_re, Complex.I_im]
    ring

lemma omegaC_sq (L : ℕ) : omegaC (2 * L) ^ 2 = omegaC L := by
  rw [omegaC, omegaC, ← Complex.exp_nat_mul]
  congr 1
  rcases Nat.eq_zero_or_pos L with rfl | hL
  · simp
  · have hL' : (L : ℂ) ≠ 0 := Nat.cast_ne_zero.mpr (by omega)
    push_cast
    field_simp
    ring

lemma omegaC_pow_self (L : ℕ) (hL : 0 < L) : omegaC L ^ L = 1 := by
  rw [omegaC, ← Complex.exp_nat_mul]
  have hL' : (L : ℂ) ≠ 0 := Nat.cast_ne_zero.mpr (by omega)
  have harg : (L : ℂ) * (((-2 * Real.pi / L : ℝ) : ℂ) * Complex.I) =
      -(2 * Real.pi * Complex.I) := by
    push_cast
    field_simp
    ring
  rw [harg, Complex.exp_neg, Complex.exp_two_pi_mul_I]
  simp

lemma omegaC_pow_half (L : ℕ) (hL : 0 < L) : omegaC (2 * L) ^ L = -1 := by
  rw [omegaC, ← Complex.exp_nat_mul]
  have hL' : (L : ℂ) ≠ 0 := Nat.cast_ne_zero.mpr (by omega)
  have harg : (L : ℂ) * (((-2 * Real.pi / (2 * L : ℕ) : ℝ) : ℂ) * Complex.I) =
      -(Real.pi * Complex.I) := by
    push_cast
    field_simp
    ring
  rw [harg, Complex.exp_neg, Complex.exp_pi_mul_I]
  norm_num

/-- After the whole permutation loop the array holds the bit-reversed input:
slot `p < 2^k` holds the original slot `rev k p` and slots beyond `2^k` are
untouched. -/
lemma brLoop_spec (k : ℕ) (out0 : ℕ → ℝ × ℝ) :
    ∀ fuel i (out : ℕ → ℝ × ℝ), 2 ^ k - i ≤ fuel → 1 ≤ i → i ≤ 2 ^ k →
      (∀ p, p < 2 ^ k →
        out p = if p < i ∨ rev k p < i then out0 (rev k p) else out0 p) →
      (∀ p, 2 ^ k ≤ p → out p = out0 p) →
      (∀ p, p < 2 ^ k → brLoop (2 ^ k) i (rev k (i - 1)) out p = out0 (rev k p)) ∧
      (∀ p, 2 ^ k ≤ p → brLoop (2 ^ k) i (rev k (i - 1)) out p = out0 p) := by
  intro fuel
  induction fuel with
  | zero =>
    intro i out hf h1 hN hinv hout
    have hiN : i = 2 ^ k := by omega
    rw [brLoop, if_neg (by omega)]
    constructor
    · intro p hp
      rw [hinv p hp, if_pos (by omega)]
    · intro p hp
      exact hout p hp
  | succ n ih =>
    intro i out hf h1 hN hinv hout
    by_cases hi : i < 2 ^ k
    · rw [brLoop, if_pos hi]
      have hnext : brNext (2 ^ k) (rev k (i - 1)) = rev k i := by
        have := brNext_rev k (i - 1) (by omega)
        rw [show i - 1 + 1 = i from by omega] at this
        exact this
      rw [hnext]
      have hri : rev k i < 2 ^ k := rev_lt k i
      have hrevi : rev k (rev k i) = i := rev_rev k i hi
      have hstep :
          ∀ p, p < 2 ^ k →
            (if i < rev k i then swapIdx out i (rev k i) else out) p =
              if p < i + 1 ∨ rev k p < i + 1 then out0 (rev k p) else out0 p := by
        intro p hp
        have hrevp : rev k (rev k p) = p := rev_rev k p hp
        by_cases hswap : i < rev k i
        · rw [if_pos hswap]
          simp only [swapIdx]
          by_cases hpi : p = i
          · subst hpi
            rw [if_pos rfl, hinv (rev k p) (rev_lt k p), hrevp,
              if_neg (by omega), if_pos (by omega)]
          · rw [if_neg hpi]
            by_cases hpr : p = rev k i
            · subst hpr
              rw [if_pos rfl, hinv i (by omega), if_neg (by omega), hrevi,
                if_pos (by omega)]
            · have hne : rev k p ≠ i := by
                intro hcon
                apply hpr
                rw [← hcon, hrevp]
              rw [if_neg hpr, hinv p hp]
              by_cases hcase : p < i ∨ rev k p < i
              · rw [if_pos hcase, if_pos (by omega)]
              · rw [if_neg hcase, if_neg (by omega)]
        · rw [if_neg hswap, hinv p hp]
          by_cases hcase : p < i ∨ rev k p < i
          · rw [if_pos hcase, if_pos (by omega)]
          · push_neg at hcase
            by_cases hpi : p = i
            · subst hpi
              have hfix : rev k p = p := by omega
              rw [hfix, if_neg (by omega), if_pos (by omega)]
            · have hne : rev k p ≠ i := by
                intro hcon
                have hpe : p = rev k i := by rw [← hcon, hrevp]
                omega
              rw [if_neg (by omega), if_neg (by omega)]
      have houtside :
          ∀ p, 2 ^ k ≤ p →
            (if i < rev k i then swapIdx out i (rev k i) else out) p = out0 p := by
        intro p hp
        by_cases hswap : i < rev k i
        · rw [if_pos hswap]
          unfold swapIdx
          rw [if_neg (by omega), if_neg (by omega)]
          exact hout p hp
        · rw [if_neg hswap]
          exact hout p hp
      have := ih (i + 1)
        (if i < rev k i then swapIdx out i (rev k i) else out)
        (by omega) (by omega) (by omega) hstep houtside
      rw [show i + 1 - 1 = i from by omega] at this
      exact this
    · rw [brLoop, if_neg (by omega)]
      constructor
      · intro p hp
        rw [hinv p hp, if_pos (by omega)]
      · intro p hp
        exact hout p hp

/-- One pass of the innermost butterfly loop: every pair
`(i+j, i+j+len/2)` with `j0 ≤ j < len/2` is combined with twiddle
`w0 · wlen^(j-j0)`, and every other slot is untouched. -/
lemma jLoop_spec (len : ℕ) (wlen : ℝ × ℝ) (i : ℕ) :
    ∀ fuel j0 (w0 : ℝ × ℝ) (out : ℕ → ℝ × ℝ), len / 2 - j0 ≤ fuel →
      (∀ j, j0 ≤ j → j < len / 2 →
        toC (jLoop len wlen i j0 w0 out (i + j)) =
          toC (out (i + j)) +
            toC (out (i + j + len / 2)) * (toC w0 * toC wlen ^ (j - j0)) ∧
        toC (jLoop len wlen i j0 w0 out (i + j + len / 2)) =
          toC (out (i + j)) -
            toC (out (i + j + len / 2)) * (toC w0 * toC wlen ^ (j - j0))) ∧
      (∀ p, (∀ j, j0 ≤ j → j < len / 2 → p ≠ i + j ∧ p ≠ i + j + len / 2) →
        jLoop len wlen i j0 w0 out p = out p) := by
  intro fuel
  induction fuel with
  | zero =>
    intro j0 w0 out hf
    constructor
    · intro j hj1 hj2
      exfalso
      omega
    · intro p hp
      rw [jLoop, if_neg (by omega)]
  | succ n ih =>
    intro j0 w0 out hf
    by_cases h : j0 < len / 2
    · have hstep : jLoop len wlen i j0 w0 out =
          jLoop len wlen i (j0 + 1) (cmul w0 wlen)
            (fun p =>
              if p = i + j0 then
                cadd (out (i + j0)) (cmul (out (i + j0 + len / 2)) w0)
              else if p = i + j0 + len / 2 then
                csub (out (i + j0)) (cmul (out (i + j0 + len / 2)) w0)
              else out p) := by
        rw [jLoop, if_pos h]
      have hout1 := ih (j0 + 1) (cmul w0 wlen)
        (fun p =>
          if p = i + j0 then
            cadd (out (i + j0)) (cmul (out (i + j0 + len / 2)) w0)
          else if p = i + j0 + len / 2 then
            csub (out (i + j0)) (cmul (out (i + j0 + len / 2)) w0)
          else out p)
        (by omega)
      constructor
      · intro j hj1 hj2
        rcases Nat.eq_or_lt_of_le hj1 with rfl | hjgt
        · -- j = j0: combined in this step, untouched by the recursive call
          have huA := hout1.2 (i + j0) (by
            intro j' hj1' hj2'
            constructor
            · intro hcon
              omega
            · intro hcon
              omega)
          have huB := hout1.2 (i + j0 + len / 2) (by
            intro j' hj1' hj2'
            constructor
            · intro hcon
              omega
            · intro hcon
              omega)
          have v1 : (fun p =>
              if p = i + j0 then cadd (out (i + j0)) (cmul (out (i + j0 + len / 2)) w0)
              else if p = i + j0 + len / 2 then
                csub (out (i + j0)) (cmul (out (i + j0 + len / 2)) w0)
              else out p) (i + j0) =
              cadd (out (i + j0)) (cmul (out (i + j0 + len / 2)) w0) := by
            simp
          have v2 : (fun p =>
              if p = i + j0 then cadd (out (i + j0)) (cmul (out (i + j0 + len / 2)) w0)
              else if p = i + j0 + len / 2 then
                csub (out (i + j0)) (cmul (out (i + j0 + len / 2)) w0)
              else out p) (i + j0 + len / 2) =
              csub (out (i + j0)) (cmul (out (i + j0 + len / 2)) w0) := by
            have hne : ¬ (i + j0 + len / 2 = i + j0) := by omega
            simp [hne]
          rw [hstep, huA, huB, v1, v2, toC_cadd, toC_csub, toC_cmul]
          constructor
          · rw [Nat.sub_self, pow_zero, mul_one]
          · rw [Nat.sub_self, pow_zero, mul_one]
        · -- j > j0: handled by the recursive call on untouched slots
          have hA := (hout1.1 j (by omega) hj2).1
          have hB := (hout1.1 j (by omega) hj2).2
          have e1 : (if i + j = i + j0 then
                cadd (out (i + j0)) (cmul (out (i + j0 + len / 2)) w0)
              else if i + j = i + j0 + len / 2 then
                csub (out (i + j0)) (cmul (out (i + j0 + len / 2)) w0)
              else out (i + j)) = out (i + j) := by
            rw [if_neg (by omega), if_neg (by omega)]
          have e2 : (if i + j + len / 2 = i + j0 then
                cadd (out (i + j0)) (cmul (out (i + j0 + len / 2)) w0)
              else if i + j + len / 2 = i + j0 + len / 2 then
                csub (out (i + j0)) (cmul (out (i + j0 + len / 2)) w0)
              else out (i + j + len / 2)) = out (i + j + len / 2) := by
            rw [if_neg (by omega), if_neg (by omega)]
          simp only [] at hA hB
          rw [e1, e2] at hA hB
          have hw : toC (cmul w0 wlen) * toC wlen ^ (j - (j0 + 1)) =
              toC w0 * toC wlen ^ (j - j0) := by
            rw [toC_cmul, show j - j0 = (j - (j0 + 1)) + 1 from by omega, pow_succ]
            ring
          rw [hstep]
          constructor
          · rw [hA, hw]
          · rw [hB, hw]
      · intro p hp
        have hu := hout1.2 p (by
          intro j' hj1' hj2'
          exact hp j' (by omega) hj2')
        rw [hstep, hu]
        simp only []
        rw [if_neg (hp j0 le_rfl h).1, if_neg (hp j0 le_rfl h).2]
    · constructor
      · intro j hj1 hj2
        exfalso
        omega
      · intro p hp
        rw [jLoop, if_neg h]

/-- One pass of the block loop over `[len*mi, len*q)`: every block
`[len*m, len*(m+1))` with `mi ≤ m < q` receives the butterfly with twiddles
`wlen^j` (the per-block `w` starts at `(1,0)`), and slots before `len*mi` or
past `len*q` are untouched. -/
lemma iLoop_spec (len : ℕ) (wlen : ℝ × ℝ) (half q : ℕ)
    (hhalf : len = 2 * half) (hpos : 0 < half) :
    ∀ fuel mi (out : ℕ → ℝ × ℝ), len * q - len * mi ≤ fuel →
      (∀ m j, mi ≤ m → m < q → j < half →
        toC (iLoop (len * q) len wlen (len * mi) out (len * m + j)) =
          toC (out (len * m + j)) +
            toC (out (len * m + j + half)) * toC wlen ^ j ∧
        toC (iLoop (len * q) len wlen (len * mi) out (len * m + j + half)) =
          toC (out (len * m + j)) -
            toC (out (len * m + j + half)) * toC wlen ^ j) ∧
      (∀ p, (p < len * mi ∨ len * q ≤ p) →
        iLoop (len * q) len wlen (len * mi) out p = out p) := by
  have hlpos : 0 < len := by omega
  intro fuel
  induction fuel with
  | zero =>
    intro mi out hf
    have hle : len * q ≤ len * mi := by omega
    have hqmi : q ≤ mi := Nat.le_of_mul_le_mul_left hle hlpos
    constructor
    · intro m j hm1 hm2 _
      exfalso
      omega
    · intro p _
      rw [iLoop, if_neg (by omega)]
  | succ n ih =>
    intro mi out hf
    by_cases hlt : len * mi < len * q
    · have hmi : mi < q := Nat.lt_of_mul_lt_mul_left hlt
      have hsucc : len * (mi + 1) = len * mi + len := Nat.mul_succ len mi
      have hl2 : len / 2 = half := by omega
      have jspec := jLoop_spec len wlen (len * mi) (len / 2) 0 (1, 0) out le_rfl
      rw [hl2] at jspec
      have hIH := ih (mi + 1) (jLoop len wlen (len * mi) 0 (1, 0) out) (by omega)
      have hloop : iLoop (len * q) len wlen (len * mi) out =
          iLoop (len * q) len wlen (len * (mi + 1))
            (jLoop len wlen (len * mi) 0 (1, 0) out) := by
        rw [iLoop, if_pos ⟨hlpos, hlt⟩, hsucc]
      have hj2 : ∀ p, p < len * mi ∨ len * mi + len ≤ p →
          jLoop len wlen (len * mi) 0 (1, 0) out p = out p := by
        intro p hp
        apply jspec.2
        intro j' hj1' hj2'
        constructor
        · omega
        · omega
      constructor
      · intro m j hm1 hm2 hj
        rcases Nat.eq_or_lt_of_le hm1 with rfl | hmgt
        · have hA := (jspec.1 j (Nat.zero_le j) (by omega)).1
          have hB := (jspec.1 j (Nat.zero_le j) (by omega)).2
          have hu1 := hIH.2 (len * mi + j) (Or.inl (by omega))
          have hu2 := hIH.2 (len * mi + j + half) (Or.inl (by omega))
          rw [hloop, hu1, hu2, hA, hB]
          rw [toC_one, Nat.sub_zero, one_mul]
          exact ⟨rfl, rfl⟩
        · have hge : len * mi + len ≤ len * m := by
            have h := Nat.mul_le_mul_left len (show mi + 1 ≤ m from by omega)
            omega
          have hA := (hIH.1 m j (by omega) hm2 hj).1
          have hB := (hIH.1 m j (by omega) hm2 hj).2
          rw [hloop, hA, hB, hj2 (len * m + j) (Or.inr (by omega)),
            hj2 (len * m + j + half) (Or.inr (by omega))]
          exact ⟨rfl, rfl⟩
      · intro p hp
        have hq1 : len * (mi + 1) ≤ len * q :=
          Nat.mul_le_mul_left len (show mi + 1 ≤ q from by omega)
        rw [hloop, hIH.2 p (by omega), hj2 p (by omega)]
    · constructor
      · intro m j hm1 hm2 _
        exfalso
        have hge : len * q ≤ len * mi := by omega
        have hqmi : q ≤ mi := Nat.le_of_mul_le_mul_left hge hlpos
        omega
      · intro p _
        rw [iLoop, if_neg (by omega)]

/-- Splitting a sum over `range (2*n)` into even and odd indices. -/
lemma sum_range_even_odd (n : ℕ) (f : ℕ → ℂ) :
    ∑ r ∈ Finset.range (2 * n), f r =
      (∑ r ∈ Finset.range n, f (2 * r)) + ∑ r ∈ Finset.range n, f (2 * r + 1) := by
  induction n with
  | zero => simp
  | succ n ih =>
    rw [show 2 * (n + 1) = 2 * n + 1 + 1 from by ring, Finset.sum_range_succ,
      Finset.sum_range_succ, ih, Finset.sum_range_succ, Finset.sum_range_succ]
    ring

/-- The decimation-in-time invariant: after all the stages up to size `2^s`,
block `b` of size `2^s` holds the size-`2^s` DFT of the stride-`2^(k-s)`
subsequence of the input `x` starting at index `rev (k-s) b`. -/
def stageInv (k s : ℕ) (x : ℕ → ℂ) (out : ℕ → ℝ × ℝ) : Prop :=
  ∀ b t, b < 2 ^ (k - s) → t < 2 ^ s →
    toC (out (2 ^ s * b + t)) =
      ∑ r ∈ Finset.range (2 ^ s),
        x (rev (k - s) b + 2 ^ (k - s) * r) * omegaC (2 ^ s) ^ (t * r)

/-- One butterfly stage (`length = 2^(s+1)`) turns the size-`2^s` sub-DFTs
into size-`2^(s+1)` sub-DFTs (the Danielson–Lanczos step). -/
lemma stage_step (k s : ℕ) (hs : s + 1 ≤ k) (x : ℕ → ℂ) (out : ℕ → ℝ × ℝ)
    (hD : stageInv k s x out) :
    stageInv k (s + 1) x
      (iLoop (2 ^ k) (2 ^ (s + 1)) (wlenOf (2 ^ (s + 1))) 0 out) := by
  intro b t hb ht
  have hp2 : (0 : ℕ) < 2 ^ s := Nat.pos_pow_of_pos s (by omega)
  have hL2 : (2 : ℕ) ^ (s + 1) = 2 * 2 ^ s := by
    rw [pow_succ]
    ring
  have hks : k - s = (k - (s + 1)) + 1 := by omega
  have hK2 : (2 : ℕ) ^ (k - s) = 2 * 2 ^ (k - (s + 1)) := by
    rw [hks, pow_succ]
    ring
  have hNq : (2 : ℕ) ^ (s + 1) * 2 ^ (k - (s + 1)) = 2 ^ k := by
    rw [← pow_add]
    congr 1
    omega
  have ispec := iLoop_spec (2 ^ (s + 1)) (wlenOf (2 ^ (s + 1))) (2 ^ s)
    (2 ^ (k - (s + 1))) hL2 hp2 (2 ^ (s + 1) * 2 ^ (k - (s + 1))) 0 out (by omega)
  rw [Nat.mul_zero, hNq] at ispec
  have hrev_even : rev (k - s) (2 * b) = rev (k - (s + 1)) b := by
    have e1 : 2 * b / 2 = b := by omega
    have e2 : 2 * b % 2 = 0 := by omega
    rw [hks, rev_succ, e1, e2]
    simp
  have hrev_odd : rev (k - s) (2 * b + 1) =
      rev (k - (s + 1)) b + 2 ^ (k - (s + 1)) := by
    have e1 : (2 * b + 1) / 2 = b := by omega
    have e2 : (2 * b + 1) % 2 = 1 := by omega
    rw [hks, rev_succ, e1, e2, one_mul]
  have hb2 : 2 * b < 2 ^ (k - s) := by omega
  have hb21 : 2 * b + 1 < 2 ^ (k - s) := by omega
  by_cases hts : t < 2 ^ s
  · have hform := (ispec.1 b t (Nat.zero_le b) hb hts).1
    have hpos1 : (2 : ℕ) ^ (s + 1) * b + t = 2 ^ s * (2 * b) + t := by
      rw [hL2]
      ring
    have hpos2 : (2 : ℕ) ^ (s + 1) * b + t + 2 ^ s = 2 ^ s * (2 * b + 1) + t := by
      rw [hL2]
      ring
    have hE := hD (2 * b) t hb2 hts
    have hO := hD (2 * b + 1) t hb21 hts
    rw [hform, toC_wlenOf, hpos2, hpos1, hE, hO, hrev_even, hrev_odd, hL2,
      sum_range_even_odd]
    have heq1 : ∑ r ∈ Finset.range (2 ^ s),
        x (rev (k - (s + 1)) b + 2 ^ (k - (s + 1)) * (2 * r)) *
          omegaC (2 * 2 ^ s) ^ (t * (2 * r)) =
        ∑ r ∈ Finset.range (2 ^ s),
          x (rev (k - (s + 1)) b + 2 ^ (k - s) * r) * omegaC (2 ^ s) ^ (t * r) := by
      apply Finset.sum_congr rfl
      intro r _
      have hidx : rev (k - (s + 1)) b + 2 ^ (k - (s + 1)) * (2 * r) =
          rev (k - (s + 1)) b + 2 ^ (k - s) * r := by
        rw [hK2]
        ring
      have hpow : omegaC (2 * 2 ^ s) ^ (t * (2 * r)) = omegaC (2 ^ s) ^ (t * r) := by
        rw [show t * (2 * r) = 2 * (t * r) from by ring, pow_mul, omegaC_sq]
      rw [hidx, hpow]
    have heq2 : ∑ r ∈ Finset.range (2 ^ s),
        x (rev (k - (s + 1)) b + 2 ^ (k - (s + 1)) * (2 * r + 1)) *
          omegaC (2 * 2 ^ s) ^ (t * (2 * r + 1)) =
        omegaC (2 * 2 ^ s) ^ t *
          ∑ r ∈ Finset.range (2 ^ s),
            x (rev (k - (s + 1)) b + 2 ^ (k - (s + 1)) + 2 ^ (k - s) * r) *
              omegaC (2 ^ s) ^ (t * r) := by
      rw [Finset.mul_sum]
      apply Finset.sum_congr rfl
      intro r _
      have hidx : rev (k - (s + 1)) b + 2 ^ (k - (s + 1)) * (2 * r + 1) =
          rev (k - (s + 1)) b + 2 ^ (k - (s + 1)) + 2 ^ (k - s) * r := by
        rw [hK2]
        ring
      have hpow : omegaC (2 * 2 ^ s) ^ (t * (2 * r + 1)) =
          omegaC (2 * 2 ^ s) ^ t * omegaC (2 ^ s) ^ (t * r) := by
        rw [show t * (2 * r + 1) = 2 * (t * r) + t from by ring, pow_add, pow_mul,
          omegaC_sq]
        ring
      rw [hidx, hpow]
      ring
    rw [heq1, heq2]
    ring
  · have hj : t - 2 ^ s < 2 ^ s := by omega
    have ht' : t - 2 ^ s + 2 ^ s = t := by omega
    have hform := (ispec.1 b (t - 2 ^ s) (Nat.zero_le b) hb hj).2
    have hpos0 : (2 : ℕ) ^ (s + 1) * b + t = 2 ^ (s + 1) * b + (t - 2 ^ s) + 2 ^ s := by
      omega
    have hpos1 : (2 : ℕ) ^ (s + 1) * b + (t - 2 ^ s) = 2 ^ s * (2 * b) + (t - 2 ^ s) := by
      rw [hL2]
      ring
    have hpos2 : (2 : ℕ) ^ (s + 1) * b + (t - 2 ^ s) + 2 ^ s =
        2 ^ s * (2 * b + 1) + (t - 2 ^ s) := by
      rw [hL2]
      ring
    have hE := hD (2 * b) (t - 2 ^ s) hb2 hj
    have hO := hD (2 * b + 1) (t - 2 ^ s) hb21 hj
    rw [hpos0, hform, toC_wlenOf, hpos2, hpos1, hE, hO, hrev_even, hrev_odd, hL2,
      sum_range_even_odd]
    have heq1 : ∑ r ∈ Finset.range (2 ^ s),
        x (rev (k - (s + 1)) b + 2 ^ (k - (s + 1)) * (2 * r)) *
          omegaC (2 * 2 ^ s) ^ (t * (2 * r)) =
        ∑ r ∈ Finset.range (2 ^ s),
          x (rev (k - (s + 1)) b + 2 ^ (k - s) * r) *
            omegaC (2 ^ s) ^ ((t - 2 ^ s) * r) := by
      apply Finset.sum_congr rfl
      intro r _
      have hidx : rev (k - (s + 1)) b + 2 ^ (k - (s + 1)) * (2 * r) =
          rev (k - (s + 1)) b + 2 ^ (k - s) * r := by
        rw [hK2]
        ring
      have hpow : omegaC (2 * 2 ^ s) ^ (t * (2 * r)) =
          omegaC (2 ^ s) ^ ((t - 2 ^ s) * r) := by
        rw [show t * (2 * r) = 2 * (t * r) from by ring, pow_mul, omegaC_sq,
          show t * r = (t - 2 ^ s) * r + 2 ^ s * r from by rw [← add_mul, ht'],
          pow_add, pow_mul (omegaC (2 ^ s)) (2 ^ s) r,
          omegaC_pow_self (2 ^ s) hp2, one_pow, mul_one]
      rw [hidx, hpow]
    have heq2 : ∑ r ∈ Finset.range (2 ^ s),
        x (rev (k - (s + 1)) b + 2 ^ (k - (s + 1)) * (2 * r + 1)) *
          omegaC (2 * 2 ^ s) ^ (t * (2 * r + 1)) =
        -(omegaC (2 * 2 ^ s) ^ (t - 2 ^ s) *
          ∑ r ∈ Finset.range (2 ^ s),
            x (rev (k - (s + 1)) b + 2 ^ (k - (s + 1)) + 2 ^ (k - s) * r) *
              omegaC (2 ^ s) ^ ((t - 2 ^ s) * r)) := by
      rw [Finset.mul_sum, ← Finset.sum_neg_distrib]
      apply Finset.sum_congr rfl
      intro r _
      have hidx : rev (k - (s + 1)) b + 2 ^ (k - (s + 1)) * (2 * r + 1) =
          rev (k - (s + 1)) b + 2 ^ (k - (s + 1)) + 2 ^ (k - s) * r := by
        rw [hK2]
        ring
      have hpow : omegaC (2 * 2 ^ s) ^ (t * (2 * r + 1)) =
          -(omegaC (2 * 2 ^ s) ^ (t - 2 ^ s) * omegaC (2 ^ s) ^ ((t - 2 ^ s) * r)) := by
        have he : t * (2 * r + 1) = 2 * (t * r) + (t - 2 ^ s) + 2 ^ s := by
          have h1 : t * (2 * r + 1) = 2 * (t * r) + t := by ring
          omega
        rw [he, pow_add, pow_add, pow_mul, omegaC_sq,
          show t * r = (t - 2 ^ s) * r + 2 ^ s * r from by rw [← add_mul, ht'],
          pow_add, pow_mul (omegaC (2 ^ s)) (2 ^ s) r,
          omegaC_pow_self (2 ^ s) hp2, one_pow, mul_one,
          omegaC_pow_half (2 ^ s) hp2]
        ring
      rw [hidx, hpow]
      ring
    rw [heq1, heq2]
    ring

/-- Running the stage loop from size `2^(s+1)` on an array satisfying the
stage-`s` invariant yields the full-size (stage-`k`) invariant. -/
lemma lenLoop_inv (k : ℕ) (x : ℕ → ℂ) :
    ∀ fuel s (out : ℕ → ℝ × ℝ), k - s ≤ fuel → s ≤ k → stageInv k s x out →
      stageInv k k x (lenLoop (2 ^ k) (2 ^ (s + 1)) out) := by
  intro fuel
  induction fuel with
  | zero =>
    intro s out hf hs hD
    have heq : s = k := by omega
    rw [lenLoop, if_neg (by
      intro hcon
      have h0 : (0 : ℕ) < 2 ^ s := Nat.pos_pow_of_pos s (by omega)
      have h1 : (2 : ℕ) ^ s < 2 ^ (s + 1) := by
        rw [pow_succ]
        omega
      have h2 := hcon.2
      rw [← heq] at h2
      omega)]
    rw [heq] at hD
    exact hD
  | succ n ih =>
    intro s out hf hs hD
    rcases Nat.eq_or_lt_of_le hs with heq | hlt
    · rw [lenLoop, if_neg (by
        intro hcon
        have h0 : (0 : ℕ) < 2 ^ s := Nat.pos_pow_of_pos s (by omega)
        have h1 : (2 : ℕ) ^ s < 2 ^ (s + 1) := by
          rw [pow_succ]
          omega
        have h2 := hcon.2
        rw [← heq] at h2
        omega)]
      rw [heq] at hD
      exact hD
    · have hcond : (0 : ℕ) < 2 ^ (s + 1) ∧ (2 : ℕ) ^ (s + 1) ≤ 2 ^ k :=
        ⟨Nat.pos_pow_of_pos _ (by omega), Nat.pow_le_pow_right (by omega) (by omega)⟩
      rw [lenLoop, if_pos hcond]
      have hD' := stage_step k s (by omega) x out hD
      have hnext := ih (s + 1)
        (iLoop (2 ^ k) (2 ^ (s + 1)) (wlenOf (2 ^ (s + 1))) 0 out)
        (by omega) (by omega) hD'
      rw [show (2 : ℕ) * 2 ^ (s + 1) = 2 ^ (s + 1 + 1) from by
        rw [pow_succ]
        ring]
      exact hnext

/-- The initial interleaved complex array of the transform: real parts from
the signal, imaginary parts zero. -/
noncomputable def fftInit (xs : List ℝ) : ℕ → ℝ × ℝ :=
  fun p => (xs.getD p 0, 0)

/-- The reference discrete Fourier transform of the spec:
bin `i` holds `Σ_n x_n · exp(-2π·i·n/N · I)`. -/
noncomputable def dft (xs : List ℝ) (i : ℕ) : ℂ :=
  ∑ n ∈ Finset.range xs.length,
    ((xs.getD n 0 : ℝ) : ℂ) *
      Complex.exp (((-2 * Real.pi * i * n / xs.length : ℝ) : ℂ) * Complex.I)

/-- The spec's reference output: the naive DFT followed by per-bin magnitude
`sqrt(re² + im²)`. -/
noncomputable def dftMagnitude (xs : List ℝ) : List ℝ :=
  (List.range xs.length).map
    (fun i => Real.sqrt ((dft xs i).re ^ 2 + (dft xs i).im ^ 2))

lemma omegaC_pow_eq_exp (N t n : ℕ) :
    omegaC N ^ (t * n) =
      Complex.exp (((-2 * Real.pi * t * n / N : ℝ) : ℂ) * Complex.I) := by
  rw [omegaC, ← Complex.exp_nat_mul]
  congr 1
  push_cast
  ring

/-- C1: for every frame whose length is a power of two, the iterative
bit-reversal/butterfly transform returns the same magnitude array as the
naive reference DFT followed by per-bin magnitude `sqrt(re² + im²)`. -/
theorem fft_eq_dft (xs : List ℝ) (hpow : ∃ k, xs.length = 2 ^ k) :
    fft xs = dftMagnitude xs := by
  obtain ⟨k, hk⟩ := hpow
  have hNpos : (0 : ℕ) < 2 ^ k := Nat.pos_pow_of_pos k (by omega)
  have hinv : ∀ p, p < 2 ^ k →
      fftInit xs p =
        if p < 1 ∨ rev k p < 1 then fftInit xs (rev k p) else fftInit xs p := by
    intro p hp
    by_cases hc : p < 1 ∨ rev k p < 1
    · rw [if_pos hc]
      rcases hc with hc | hc
      · rw [show p = 0 from by omega, rev_zero]
      · have hr0 : rev k p = 0 := by omega
        have hp0 : p = 0 := by
          rw [← rev_rev k p hp, hr0, rev_zero]
        rw [hr0, hp0]
    · rw [if_neg hc]
  have hbr' : ∀ p, p < 2 ^ k →
      brLoop (2 ^ k) 1 0 (fftInit xs) p = fftInit xs (rev k p) := by
    have h := (brLoop_spec k (fftInit xs) (2 ^ k) 1 (fftInit xs) (by omega)
      le_rfl hNpos hinv (fun p _ => rfl)).1
    rw [show (1 : ℕ) - 1 = 0 from rfl, rev_zero] at h
    exact h
  have hinv0 : stageInv k 0 (fun n => ((xs.getD n 0 : ℝ) : ℂ))
      (brLoop (2 ^ k) 1 0 (fftInit xs)) := by
    intro b t hb ht
    have h1 : (2 : ℕ) ^ 0 = 1 := rfl
    have ht0 : t = 0 := by omega
    subst ht0
    rw [Nat.sub_zero] at hb
    rw [show (2 : ℕ) ^ 0 * b + 0 = b from by norm_num]
    rw [hbr' b hb, h1, Finset.sum_range_one]
    simp only [Nat.sub_zero, Nat.mul_zero, Nat.add_zero, Nat.zero_mul, pow_zero,
      mul_one]
    rfl
  have hfin := lenLoop_inv k (fun n => ((xs.getD n 0 : ℝ) : ℂ)) k 0
    (brLoop (2 ^ k) 1 0 (fftInit xs)) (by omega) (Nat.zero_le k) hinv0
  rw [show (2 : ℕ) ^ (0 + 1) = 2 from by norm_num] at hfin
  have hmain : ∀ t, t < 2 ^ k → toC (fftOut xs t) = dft xs t := by
    intro t ht
    have h := hfin 0 t (by norm_num [Nat.sub_self]) ht
    rw [Nat.mul_zero, Nat.zero_add] at h
    have hsimp : ∀ r : ℕ, rev (k - k) 0 + 2 ^ (k - k) * r = r := by
      intro r
      rw [Nat.sub_self, rev_zero, pow_zero, one_mul, Nat.zero_add]
    have hfo : fftOut xs = lenLoop (2 ^ k) 2 (brLoop (2 ^ k) 1 0 (fftInit xs)) := by
      rw [show fftOut xs =
        lenLoop xs.length 2 (brLoop xs.length 1 0 (fftInit xs)) from rfl, hk]
    rw [hfo, h, dft, hk]
    apply Finset.sum_congr rfl
    intro r hr
    rw [hsimp r, omegaC_pow_eq_exp]
  unfold fft dftMagnitude
  apply List.map_congr_left
  intro a ha
  have ha' : a < 2 ^ k := by
    rw [← hk]
    exact List.mem_range.mp ha
  have h := hmain a ha'
  have hre : (fftOut xs a).1 = (dft xs a).re := by
    rw [← h]
    rfl
  have him : (fftOut xs a).2 = (dft xs a).im := by
    rw [← h]
    rfl
  rw [hre, him]

/-- Witness for C1: the two-sample frame `[1, 0]` (length `2 = 2^1`). -/
theorem fft_eq_dft_witness :
    fft [(1 : ℝ), 0] = dftMagnitude [(1 : ℝ), 0] :=
  fft_eq_dft [1, 0] ⟨1, rfl⟩
